import Mathlib

/-!
Shallow embedding of `src/bin/changelog.py` (the `changelog` repository).

Python `datetime` values are modelled by `Timestamp`: an order-embedded copy
of the finite datetimes (`finite n`) together with the maximum representable
datetime `datetime.max` (`Timestamp.max`).  All program logic uses only the
order on datetimes, so this embedding is faithful for every claim considered.
`datetime.strptime` is standard-library code, not repository code; it is
passed in as an abstract parameter `strptime : String → String → Option
Timestamp` (format, string), `none` modelling a `ValueError`.
-/

inductive Timestamp where
  | finite (n : Nat) : Timestamp
  | max : Timestamp
deriving DecidableEq

/-- The order on Python datetimes: `datetime.max` is the greatest element. -/
def Timestamp.le : Timestamp → Timestamp → Bool
  | _, .max => true
  | .max, .finite _ => false
  | .finite a, .finite b => a ≤ b

/-- Strict order on Python datetimes. -/
def Timestamp.lt : Timestamp → Timestamp → Bool
  | .max, _ => false
  | .finite _, .max => true
  | .finite a, .finite b => a < b

/-- `isoformat`, modelled as an injective rendering of the timestamp. -/
def Timestamp.isoformat : Timestamp → String
  | .finite n => Nat.repr n
  | .max => "9999-12-31T23:59:59.999999"

/-- `class ReleaseClass(Enum)` with values `public`, `private`. -/
inductive ReleaseClass where
  | PUBLIC : ReleaseClass
  | PRIVATE : ReleaseClass
deriving DecidableEq

/-- The `value` of each `ReleaseClass` member. -/
def ReleaseClass.value : ReleaseClass → String
  | .PUBLIC => "public"
  | .PRIVATE => "private"

/-- `class ChangeClass(Enum)` with values `major`, `minor`, `patch`, `internal`. -/
inductive ChangeClass where
  | MAJOR : ChangeClass
  | MINOR : ChangeClass
  | PATCH : ChangeClass
  | INTERNAL : ChangeClass
deriving DecidableEq

/-- The `value` of each `ChangeClass` member. -/
def ChangeClass.value : ChangeClass → String
  | .MAJOR => "major"
  | .MINOR => "minor"
  | .PATCH => "patch"
  | .INTERNAL => "internal"

/-- `class Release`: timestamp, visibility class, optional comment. -/
structure Release where
  datetime : Timestamp
  release_class : ReleaseClass
  comment : Option String := none
deriving DecidableEq

/-- `class Change`: timestamp, severity class, type label, comment. -/
structure Change where
  datetime : Timestamp
  change_class : ChangeClass
  change_type : String
  comment : String
deriving DecidableEq

/-- `class SemanticVersion`: a (major, minor, patch) triple. -/
structure SemanticVersion where
  major : Nat := 0
  minor : Nat := 0
  patch : Nat := 0
deriving DecidableEq

def SemanticVersion.increment_major (v : SemanticVersion) : SemanticVersion :=
  { major := v.major + 1, minor := 0, patch := 0 }

def SemanticVersion.increment_minor (v : SemanticVersion) : SemanticVersion :=
  { major := v.major, minor := v.minor + 1, patch := 0 }

def SemanticVersion.increment_patch (v : SemanticVersion) : SemanticVersion :=
  { major := v.major, minor := v.minor, patch := v.patch + 1 }

/-- `SemanticVersion.__str__`. -/
def SemanticVersion.str (v : SemanticVersion) : String :=
  Nat.repr v.major ++ "." ++ Nat.repr v.minor ++ "." ++ Nat.repr v.patch

/-- `class ChangeGroup`: the state set up by `ChangeGroup.__init__`. -/
structure ChangeGroup where
  release : Release
  changes : List Change
  semantic_version : SemanticVersion
deriving DecidableEq

/-- The flag-scanning loop of `ChangeGroup.__init__`: folds over the changes,
updating `(is_major_update_found, is_minor_update_found, is_patch_update_found)`
exactly as the `if`/`elif` chain does. -/
def ChangeGroup.scan_flags (changes : List Change) : Bool × Bool × Bool :=
  changes.foldl
    (fun f change =>
      if change.change_class = ChangeClass.MAJOR then (true, f.2.1, f.2.2)
      else if change.change_class = ChangeClass.MINOR then (f.1, true, f.2.2)
      else if change.change_class = ChangeClass.PATCH then (f.1, f.2.1, true)
      else f)
    (false, false, false)

/-- `ChangeGroup.__init__(release, changes, previous_semantic_version)`. -/
def ChangeGroup.init (release : Release) (changes : List Change)
    (previous_semantic_version : SemanticVersion) : ChangeGroup :=
  let flags := ChangeGroup.scan_flags changes
  let is_major_update_found := flags.1
  let is_minor_update_found := flags.2.1
  let is_patch_update_found := flags.2.2
  let semantic_version :=
    if is_major_update_found then
      if previous_semantic_version.major = 0 ∧ release.release_class = ReleaseClass.PRIVATE then
        previous_semantic_version.increment_minor
      else
        previous_semantic_version.increment_major
    else if is_minor_update_found then
      previous_semantic_version.increment_minor
    else if is_patch_update_found then
      previous_semantic_version.increment_patch
    else
      previous_semantic_version
  { release := release, changes := changes, semantic_version := semantic_version }

/-- `class ChangeLog`: holds the computed `change_groups`, newest first. -/
structure ChangeLog where
  change_groups : List ChangeGroup
deriving DecidableEq

/-- Sort key for releases: `attrgetter('datetime')`. -/
def releaseLe (a b : Release) : Bool := Timestamp.le a.datetime b.datetime

/-- Sort key for changes: `attrgetter('datetime')`. -/
def changeLe (a b : Change) : Bool := Timestamp.le a.datetime b.datetime

/-- The `for change in changes` loop of `ChangeLog.__init__`, with the state
variables made explicit.  `releases.pop(0)` on an empty list raises
`IndexError`, modelled by `none`.  `current_changes.insert(0, change)` and
`self.change_groups.insert(0, change_group)` are list prepends. -/
def ChangeLog.build_loop : List Change → Release → List Release → List Change →
    SemanticVersion → List ChangeGroup → Option (List ChangeGroup)
  | [], current_release, _, current_changes, current_version, change_groups =>
    some (ChangeGroup.init current_release current_changes current_version :: change_groups)
  | change :: rest, current_release, releases, current_changes, current_version,
      change_groups =>
    if Timestamp.lt current_release.datetime change.datetime then
      match releases with
      | [] => none
      | next_release :: releases =>
        let change_group := ChangeGroup.init current_release current_changes current_version
        ChangeLog.build_loop rest next_release releases [change]
          change_group.semantic_version (change_group :: change_groups)
    else
      ChangeLog.build_loop rest current_release releases (change :: current_changes)
        current_version change_groups

/-- `ChangeLog.__init__(releases, changes)`: sort both lists by timestamp
(Python `list.sort` is stable, as is `List.mergeSort`), pop the earliest
release, and run the partition loop.  The initial `pop(0)` on an empty
release list raises `IndexError`, modelled by `none`. -/
def ChangeLog.init (releases : List Release) (changes : List Change) : Option ChangeLog :=
  match releases.mergeSort releaseLe with
  | [] => none
  | current_release :: rest =>
    (ChangeLog.build_loop (changes.mergeSort changeLe) current_release rest []
      { major := 0, minor := 0, patch := 0 } []).map ChangeLog.mk

/-- `ChangeLog.get_latest_version`: `change_groups[0]` (`none` models the
`IndexError` on an empty list). -/
def ChangeLog.get_latest_version (c : ChangeLog) : Option SemanticVersion :=
  c.change_groups.head?.map ChangeGroup.semantic_version

/-- The lines `ChangeLog.print_changelog` writes for one group: the header
followed by one line per stored change, in stored order. -/
def ChangeGroup.render (g : ChangeGroup) : List String :=
  (SemanticVersion.str g.semantic_version ++ " (" ++
      Timestamp.isoformat g.release.datetime ++ ")") ::
    g.changes.map (fun change =>
      "- " ++ Timestamp.isoformat change.datetime ++ ": [" ++
        change.change_type ++ "] " ++ change.comment)

/-- `ChangeLog.print_changelog`: all lines written to stdout, in order. -/
def ChangeLog.print_changelog (c : ChangeLog) : List String :=
  (c.change_groups.map ChangeGroup.render).flatten

/-!
Embedding of `ChangeLog.parse_changelog`.  The input is the JSON document
already decoded by `json.loads` (JSON syntax itself is out of scope);
Python dicts are modelled as association lists in insertion/iteration
order.  Each exception class the parser can raise is one `ParseError`
constructor; `keyError` models Python's built-in `KeyError` (raised by
`changelog_data[...]` on a missing key) and `stopIteration` models
`next()` on an empty iterator — neither of those two is a `FormatError`
subclass in the source.
-/

/-- A decoded changelog document: the five recognized top-level keys, each
`none` when absent.  A release definition is a dict visibility-label ↦
comment; a change definition is a dict type-label ↦ comment. -/
structure ChangelogData where
  datetime_format : Option String := none
  utc_offset_hours : Option Int := none
  releases : Option (List (String × List (String × String))) := none
  changes : Option (List (String × List (List (String × String)))) := none
  change_types : Option (List (String × List String)) := none

inductive ParseError where
  | missingKeyFormatError (key : String)
  | invalidDatetimeError (s : String)
  | invalidChangeClassError
  | invalidChangeTypeError
  | invalidReleaseClassError (value : String)
  | keyError (key : String)
  | stopIteration
deriving DecidableEq

/-- Which `ParseError`s correspond to subclasses of `FormatError` in the
source.  `KeyError` and `StopIteration` are Python built-ins, not
`FormatError`s, so they are caught only by the catch-all
`except Exception` handler (exit code 99, "unexpected error"). -/
def ParseError.isFormatError : ParseError → Bool
  | .keyError _ => false
  | .stopIteration => false
  | _ => true

def DEFAULT_DATETIME_FORMAT : String := "%Y-%m-%d %H:%M"

/-- `ReleaseClass.get_from_value`: scan the enum members in declaration
order, return the match, raise `InvalidReleaseClassError` otherwise. -/
def ReleaseClass.get_from_value (value : String) : Except ParseError ReleaseClass :=
  if value = ReleaseClass.PUBLIC.value then .ok .PUBLIC
  else if value = ReleaseClass.PRIVATE.value then .ok .PRIVATE
  else .error (.invalidReleaseClassError value)

/-- `ChangeClass.get_from_value`. -/
def ChangeClass.get_from_value (value : String) : Except ParseError ChangeClass :=
  if value = ChangeClass.MAJOR.value then .ok .MAJOR
  else if value = ChangeClass.MINOR.value then .ok .MINOR
  else if value = ChangeClass.PATCH.value then .ok .PATCH
  else if value = ChangeClass.INTERNAL.value then .ok .INTERNAL
  else .error .invalidChangeClassError

/-- First `releases` loop: validate every release datetime string against the
configured format. -/
def validate_release_datetimes (strptime : String → String → Option Timestamp)
    (fmt : String) : List (String × List (String × String)) → Except ParseError Unit
  | [] => .ok ()
  | (release_datetime_string, _) :: rest =>
    match strptime fmt release_datetime_string with
    | none => .error (.invalidDatetimeError release_datetime_string)
    | some _ => validate_release_datetimes strptime fmt rest

/-- Second `releases` loop: `next(iter(release_definition.items()))` takes the
first entry of the definition dict (raising `StopIteration` when empty) and
ignores the rest. -/
def parse_releases (strptime : String → String → Option Timestamp) (fmt : String) :
    List (String × List (String × String)) → Except ParseError (List Release)
  | [] => .ok []
  | (release_datetime_string, release_definition) :: rest =>
    match strptime fmt release_datetime_string with
    | none => .error (.invalidDatetimeError release_datetime_string)
    | some release_datetime =>
      match release_definition with
      | [] => .error .stopIteration
      | (release_class_value, release_comment) :: _ => do
        let release_class ← ReleaseClass.get_from_value release_class_value
        let more ← parse_releases strptime fmt rest
        pure (Release.mk release_datetime release_class (some release_comment) :: more)

/-- Python `set(a) == set(b)` on lists of strings. -/
def stringSetEq (a b : List String) : Bool :=
  a.all (fun x => b.contains x) && b.all (fun x => a.contains x)

/-- The `change types` validations, in source order: first the
duplicate-type check (`len(change_types) != len(set(change_types))`), then
the key-set check against the four valid class values. -/
def validate_change_types (change_type_definitions : List (String × List String)) :
    Except ParseError Unit :=
  let change_types := (change_type_definitions.map Prod.snd).flatten
  if change_types.Nodup then
    let change_class_values := change_type_definitions.map Prod.fst
    let valid_class_values :=
      [ChangeClass.MAJOR.value, ChangeClass.MINOR.value,
        ChangeClass.PATCH.value, ChangeClass.INTERNAL.value]
    if stringSetEq change_class_values valid_class_values then .ok ()
    else .error .invalidChangeClassError
  else .error .invalidChangeTypeError

/-- The inner lookup loop over `change_type_definitions.items()`: find the
first severity whose type list contains the label; `found_change_class is
None` after the loop raises `InvalidChangeTypeError`. -/
def find_change_class (change_type_definitions : List (String × List String))
    (change_type : String) : Except ParseError ChangeClass :=
  match change_type_definitions with
  | [] => .error .invalidChangeTypeError
  | (change_class_value, change_types) :: rest =>
    if change_types.contains change_type then
      ChangeClass.get_from_value change_class_value
    else find_change_class rest change_type

/-- The inner `for change_definition in change_definitions` loop:
`next(iter(change_definition.items()))` takes the first entry and ignores
the rest. -/
def parse_changes_at (change_datetime : Timestamp)
    (change_type_definitions : List (String × List String)) :
    List (List (String × String)) → Except ParseError (List Change)
  | [] => .ok []
  | change_definition :: rest =>
    match change_definition with
    | [] => .error .stopIteration
    | (change_type, change_comment) :: _ => do
      let found_change_class ← find_change_class change_type_definitions change_type
      let more ← parse_changes_at change_datetime change_type_definitions rest
      pure (Change.mk change_datetime found_change_class change_type change_comment :: more)

/-- The outer `changes` loop: parse each datetime key, then each definition
under it. -/
def parse_changes (strptime : String → String → Option Timestamp) (fmt : String)
    (change_type_definitions : List (String × List String)) :
    List (String × List (List (String × String))) → Except ParseError (List Change)
  | [] => .ok []
  | (change_datetime_string, change_definitions) :: rest =>
    match strptime fmt change_datetime_string with
    | none => .error (.invalidDatetimeError change_datetime_string)
    | some change_datetime => do
      let here ← parse_changes_at change_datetime change_type_definitions change_definitions
      let more ← parse_changes strptime fmt change_type_definitions rest
      pure (here ++ more)

/-- Lines 176-189 of the source: start from the synthetic
maximum-timestamp `PRIVATE` release, then (when the optional `releases`
key is present) validate all release datetimes and append the declared
releases. -/
def releases_stage (strptime : String → String → Option Timestamp) (fmt : String) :
    Option (List (String × List (String × String))) → Except ParseError (List Release)
  | none => .ok [Release.mk Timestamp.max ReleaseClass.PRIVATE none]
  | some release_list =>
    match validate_release_datetimes strptime fmt release_list with
    | .error e => .error e
    | .ok _ =>
      match parse_releases strptime fmt release_list with
      | .error e => .error e
      | .ok declared =>
        .ok (Release.mk Timestamp.max ReleaseClass.PRIVATE none :: declared)

/-- `ChangeLog.parse_changelog`, from the decoded document to the
release/change lists handed to `ChangeLog.__init__`.  Stages in source
order: `datetime format` defaulting, required `utc offset hours`, the
releases stage, required `change types` with its validations, then the
`changes` lookup (a plain subscript: a missing key raises `KeyError`)
and the change loop. -/
def ChangeLog.parse_changelog (strptime : String → String → Option Timestamp)
    (changelog_data : ChangelogData) : Except ParseError (List Release × List Change) :=
  match changelog_data.utc_offset_hours with
  | none => .error (.missingKeyFormatError "utc offset hours")
  | some _ =>
    match releases_stage strptime
        (changelog_data.datetime_format.getD DEFAULT_DATETIME_FORMAT)
        changelog_data.releases with
    | .error e => .error e
    | .ok releases =>
      match changelog_data.change_types with
      | none => .error (.missingKeyFormatError "change types")
      | some change_type_definitions =>
        match validate_change_types change_type_definitions with
        | .error e => .error e
        | .ok _ =>
          match changelog_data.changes with
          | none => .error (.keyError "changes")
          | some change_list =>
            match parse_changes strptime
                (changelog_data.datetime_format.getD DEFAULT_DATETIME_FORMAT)
                change_type_definitions change_list with
            | .error e => .error e
            | .ok changes => .ok (releases, changes)

/-- The tail of `parse_changelog`: `return klass(releases, changes)`. -/
def parse_and_build (strptime : String → String → Option Timestamp)
    (changelog_data : ChangelogData) : Except ParseError (Option ChangeLog) :=
  (ChangeLog.parse_changelog strptime changelog_data).map
    (fun rc => ChangeLog.init rc.1 rc.2)

/-!
Definitions used by the theorems below: orderings on versions, relations on
groups, the definition-truncation transform, and concrete inputs for the
counterexamples and witnesses.
-/

/-- Modelled from the spec's words ("component-wise triple ordering"): the
product order on (major, minor, patch). -/
def SemanticVersion.componentwiseLe (a b : SemanticVersion) : Prop :=
  a.major ≤ b.major ∧ a.minor ≤ b.minor ∧ a.patch ≤ b.patch

/-- Lexicographic order on (major, minor, patch). -/
def SemanticVersion.lexLe (a b : SemanticVersion) : Prop :=
  a.major < b.major ∨
    (a.major = b.major ∧
      (a.minor < b.minor ∨ (a.minor = b.minor ∧ a.patch ≤ b.patch)))

/-- `next` is obtained from `prev` by at most one of the three increments:
the only transitions `ChangeGroup.__init__` can make. -/
def versionStep (prev next : SemanticVersion) : Prop :=
  next = prev ∨ next = prev.increment_patch ∨ next = prev.increment_minor ∨
    next = prev.increment_major

/-- A change list in descending (newest-first) timestamp order. -/
def descendingChanges (l : List Change) : Prop :=
  l.Chain' (fun a b => Timestamp.lt a.datetime b.datetime = false)

/-- A change list in ascending (oldest-first) timestamp order. -/
def ascendingChanges (l : List Change) : Prop :=
  l.Chain' (fun a b => Timestamp.le a.datetime b.datetime = true)

/-- Between adjacent groups (newer group first): every change of the newer
group is strictly after the older group's release timestamp. -/
def groupBound (gNewer gOlder : ChangeGroup) : Prop :=
  ∀ c ∈ gNewer.changes, Timestamp.lt gOlder.release.datetime c.datetime = true

/-- A release either is the chronologically earliest one, or some change's
timestamp strictly exceeds every strictly-earlier release's timestamp. -/
def earliestOrTriggered (allRels : List Release) (allChs : List Change)
    (r0 ρ : Release) : Prop :=
  ρ = r0 ∨ ∃ c ∈ allChs, ∀ r ∈ allRels,
    Timestamp.lt r.datetime ρ.datetime = true →
      Timestamp.lt r.datetime c.datetime = true

/-- Truncate every release definition and change definition to its first
entry (the only entry `next(iter(...))` ever reads). -/
def truncate_definitions (d : ChangelogData) : ChangelogData :=
  { d with
    releases := d.releases.map (List.map (fun p => (p.1, p.2.take 1))),
    changes := d.changes.map (List.map (fun p => (p.1, p.2.map (List.take 1)))) }

/-- The four severity labels with empty type lists: a minimal valid
`change types` table. -/
def emptyChangeTypes : List (String × List String) :=
  [(ChangeClass.MAJOR.value, []), (ChangeClass.MINOR.value, []),
    (ChangeClass.PATCH.value, []), (ChangeClass.INTERNAL.value, [])]

/-- Concrete inputs for the C3 counterexample: a single (synthetic) release
and two patch changes at times 1 and 2. -/
def c3_release : Release := ⟨Timestamp.max, ReleaseClass.PRIVATE, none⟩
def c3_change1 : Change := ⟨Timestamp.finite 1, ChangeClass.PATCH, "bug fix", "a"⟩
def c3_change2 : Change := ⟨Timestamp.finite 2, ChangeClass.PATCH, "bug fix", "b"⟩

/-- Concrete inputs for the C4 counterexample: releases at times 1 and 2
(plus the synthetic one) and a single change at time 3. -/
def c4_release1 : Release := ⟨Timestamp.finite 1, ReleaseClass.PUBLIC, none⟩
def c4_release2 : Release := ⟨Timestamp.finite 2, ReleaseClass.PUBLIC, none⟩
def c4_releaseMax : Release := ⟨Timestamp.max, ReleaseClass.PRIVATE, none⟩
def c4_change : Change := ⟨Timestamp.finite 3, ChangeClass.PATCH, "bug fix", "late"⟩

/-- Concrete inputs for the C6 counterexample: a minor change at time 1
under a public release at time 1, then a major change at time 2 under a
public release at time 2. -/
def c6_release1 : Release := ⟨Timestamp.finite 1, ReleaseClass.PUBLIC, none⟩
def c6_release2 : Release := ⟨Timestamp.finite 2, ReleaseClass.PUBLIC, none⟩
def c6_releaseMax : Release := ⟨Timestamp.max, ReleaseClass.PRIVATE, none⟩
def c6_minorChange : Change := ⟨Timestamp.finite 1, ChangeClass.MINOR, "new feature", "f"⟩
def c6_majorChange : Change := ⟨Timestamp.finite 2, ChangeClass.MAJOR, "specification change", "s"⟩

/-! Order facts about `Timestamp`. -/

theorem Timestamp.le_refl (a : Timestamp) : Timestamp.le a a = true := by
  cases a <;> simp [Timestamp.le]

theorem Timestamp.le_trans {a b c : Timestamp} (h1 : Timestamp.le a b = true)
    (h2 : Timestamp.le b c = true) : Timestamp.le a c = true := by
  cases a <;> cases b <;> cases c <;> simp_all [Timestamp.le]
  omega

theorem Timestamp.le_total (a b : Timestamp) :
    (Timestamp.le a b || Timestamp.le b a) = true := by
  cases a <;> cases b <;> simp [Timestamp.le]
  omega

theorem Timestamp.not_lt_of_le {a b : Timestamp} (h : Timestamp.le a b = true) :
    Timestamp.lt b a = false := by
  cases a <;> cases b <;> simp_all [Timestamp.le, Timestamp.lt]

theorem Timestamp.le_of_not_lt {a b : Timestamp} (h : Timestamp.lt a b = false) :
    Timestamp.le b a = true := by
  cases a <;> cases b <;> simp_all [Timestamp.le, Timestamp.lt]

theorem Timestamp.lt_of_lt_of_le {a b c : Timestamp} (h1 : Timestamp.lt a b = true)
    (h2 : Timestamp.le b c = true) : Timestamp.lt a c = true := by
  cases a <;> cases b <;> cases c <;> simp_all [Timestamp.le, Timestamp.lt]
  omega

theorem Timestamp.lt_of_le_of_lt {a b c : Timestamp} (h1 : Timestamp.le a b = true)
    (h2 : Timestamp.lt b c = true) : Timestamp.lt a c = true := by
  cases a <;> cases b <;> cases c <;> simp_all [Timestamp.le, Timestamp.lt]
  omega

theorem Timestamp.lt_irrefl (a : Timestamp) : Timestamp.lt a a = false := by
  cases a <;> simp [Timestamp.lt]

theorem Timestamp.lt_max_false (a : Timestamp) : Timestamp.lt Timestamp.max a = false := rfl

theorem releaseLe_refl (a : Release) : releaseLe a a = true := Timestamp.le_refl _

theorem releaseLe_trans : ∀ (a b c : Release),
    releaseLe a b → releaseLe b c → releaseLe a c := by
  intro a b c h1 h2
  exact Timestamp.le_trans h1 h2

theorem releaseLe_total : ∀ (a b : Release), (releaseLe a b || releaseLe b a) = true :=
  fun a b => Timestamp.le_total a.datetime b.datetime

theorem changeLe_trans : ∀ (a b c : Change),
    changeLe a b → changeLe b c → changeLe a c := by
  intro a b c h1 h2
  exact Timestamp.le_trans h1 h2

theorem changeLe_total : ∀ (a b : Change), (changeLe a b || changeLe b a) = true :=
  fun a b => Timestamp.le_total a.datetime b.datetime

/-! Characterization of the `ChangeGroup.__init__` flag scan. -/

theorem ChangeGroup.scan_flags_go (changes : List Change) (f : Bool × Bool × Bool) :
    changes.foldl
      (fun f change =>
        if change.change_class = ChangeClass.MAJOR then (true, f.2.1, f.2.2)
        else if change.change_class = ChangeClass.MINOR then (f.1, true, f.2.2)
        else if change.change_class = ChangeClass.PATCH then (f.1, f.2.1, true)
        else f)
      f =
    (f.1 || changes.any (fun c => decide (c.change_class = ChangeClass.MAJOR)),
      f.2.1 || changes.any (fun c => decide (c.change_class = ChangeClass.MINOR)),
      f.2.2 || changes.any (fun c => decide (c.change_class = ChangeClass.PATCH))) := by
  induction changes generalizing f with
  | nil => simp
  | cons c rest ih =>
    rw [List.foldl_cons, ih]
    cases hc : c.change_class <;>
      simp [hc, Bool.or_assoc]

theorem ChangeGroup.scan_flags_eq (changes : List Change) :
    ChangeGroup.scan_flags changes =
      (changes.any (fun c => decide (c.change_class = ChangeClass.MAJOR)),
        changes.any (fun c => decide (c.change_class = ChangeClass.MINOR)),
        changes.any (fun c => decide (c.change_class = ChangeClass.PATCH))) := by
  unfold ChangeGroup.scan_flags
  rw [ChangeGroup.scan_flags_go]
  simp

theorem ChangeGroup.init_release (release : Release) (changes : List Change)
    (prev : SemanticVersion) : (ChangeGroup.init release changes prev).release = release := rfl

theorem ChangeGroup.init_changes (release : Release) (changes : List Change)
    (prev : SemanticVersion) : (ChangeGroup.init release changes prev).changes = changes := rfl

/-- The version computed by `ChangeGroup.__init__`, as a priority cascade
over the presence of each severity in the change list. -/
theorem ChangeGroup.init_semantic_version (release : Release) (changes : List Change)
    (prev : SemanticVersion) :
    (ChangeGroup.init release changes prev).semantic_version =
      if ∃ c ∈ changes, c.change_class = ChangeClass.MAJOR then
        (if prev.major = 0 ∧ release.release_class = ReleaseClass.PRIVATE then
          prev.increment_minor
        else prev.increment_major)
      else if ∃ c ∈ changes, c.change_class = ChangeClass.MINOR then
        prev.increment_minor
      else if ∃ c ∈ changes, c.change_class = ChangeClass.PATCH then
        prev.increment_patch
      else prev := by
  unfold ChangeGroup.init
  rw [ChangeGroup.scan_flags_eq]
  simp only [List.any_eq_true, decide_eq_true_eq]

/-- C1: with at least one Major change in the group, the version is the
minor increment of the previous version when `previousVersion.major == 0`
and the release is Private, and the major increment in every other case
(previous major positive, or Public release). -/
theorem C1_major_increment_rule (release : Release) (changes : List Change)
    (prev : SemanticVersion) (hmaj : ∃ c ∈ changes, c.change_class = ChangeClass.MAJOR) :
    (prev.major = 0 ∧ release.release_class = ReleaseClass.PRIVATE →
      (ChangeGroup.init release changes prev).semantic_version = prev.increment_minor) ∧
    (0 < prev.major ∨ release.release_class = ReleaseClass.PUBLIC →
      (ChangeGroup.init release changes prev).semantic_version = prev.increment_major) := by
  rw [ChangeGroup.init_semantic_version]
  constructor
  · intro hpriv
    simp [hmaj, hpriv]
  · intro hother
    have hnot : ¬(prev.major = 0 ∧ release.release_class = ReleaseClass.PRIVATE) := by
      rcases hother with h | h
      · exact fun hc => by omega
      · exact fun hc => by rw [h] at hc; exact absurd hc.2 (by simp)
    simp [hmaj, hnot]

/-- Witness for C1: from previous version (0,0,0), a Major change under a
Private release yields (0,1,0) and under a Public release yields (1,0,0). -/
theorem C1_major_increment_rule_witness :
    (ChangeGroup.init ⟨Timestamp.max, ReleaseClass.PRIVATE, none⟩
        [⟨Timestamp.finite 1, ChangeClass.MAJOR, "specification change", "x"⟩]
        ⟨0, 0, 0⟩).semantic_version = ⟨0, 1, 0⟩ ∧
    (ChangeGroup.init ⟨Timestamp.max, ReleaseClass.PUBLIC, none⟩
        [⟨Timestamp.finite 1, ChangeClass.MAJOR, "specification change", "x"⟩]
        ⟨0, 0, 0⟩).semantic_version = ⟨1, 0, 0⟩ := by
  constructor
  · exact (C1_major_increment_rule _ _ _
      ⟨_, List.mem_cons_self _ _, rfl⟩).1 ⟨rfl, rfl⟩
  · exact (C1_major_increment_rule _ _ _
      ⟨_, List.mem_cons_self _ _, rfl⟩).2 (Or.inr rfl)

/-- C2: exactly one increment (or none) is applied, chosen by severity
priority over the whole change list; consequently any two change lists that
both contain a Major-class change produce the same version. -/
theorem C2_severity_priority (release : Release) (changes : List Change)
    (prev : SemanticVersion) :
    ((∃ c ∈ changes, c.change_class = ChangeClass.MAJOR) →
      (ChangeGroup.init release changes prev).semantic_version =
        if prev.major = 0 ∧ release.release_class = ReleaseClass.PRIVATE then
          prev.increment_minor
        else prev.increment_major) ∧
    ((¬∃ c ∈ changes, c.change_class = ChangeClass.MAJOR) →
      (∃ c ∈ changes, c.change_class = ChangeClass.MINOR) →
      (ChangeGroup.init release changes prev).semantic_version = prev.increment_minor) ∧
    ((¬∃ c ∈ changes, c.change_class = ChangeClass.MAJOR) →
      (¬∃ c ∈ changes, c.change_class = ChangeClass.MINOR) →
      (∃ c ∈ changes, c.change_class = ChangeClass.PATCH) →
      (ChangeGroup.init release changes prev).semantic_version = prev.increment_patch) ∧
    ((∀ c ∈ changes, c.change_class = ChangeClass.INTERNAL) →
      (ChangeGroup.init release changes prev).semantic_version = prev) ∧
    (∀ changes2 : List Change,
      (∃ c ∈ changes, c.change_class = ChangeClass.MAJOR) →
      (∃ c ∈ changes2, c.change_class = ChangeClass.MAJOR) →
      (ChangeGroup.init release changes prev).semantic_version =
        (ChangeGroup.init release changes2 prev).semantic_version) := by
  refine ⟨?_, ?_, ?_, ?_, ?_⟩
  · intro hmaj
    rw [ChangeGroup.init_semantic_version]
    simp [hmaj]
  · intro hnomaj hmin
    rw [ChangeGroup.init_semantic_version]
    simp [hnomaj, hmin]
  · intro hnomaj hnomin hpatch
    rw [ChangeGroup.init_semantic_version]
    simp [hnomaj, hnomin, hpatch]
  · intro hint
    rw [ChangeGroup.init_semantic_version]
    have h1 : ¬∃ c ∈ changes, c.change_class = ChangeClass.MAJOR := by
      rintro ⟨c, hc, he⟩
      have := hint c hc
      simp_all
    have h2 : ¬∃ c ∈ changes, c.change_class = ChangeClass.MINOR := by
      rintro ⟨c, hc, he⟩
      have := hint c hc
      simp_all
    have h3 : ¬∃ c ∈ changes, c.change_class = ChangeClass.PATCH := by
      rintro ⟨c, hc, he⟩
      have := hint c hc
      simp_all
    simp [h1, h2, h3]
  · intro changes2 h1 h2
    rw [ChangeGroup.init_semantic_version, ChangeGroup.init_semantic_version]
    simp [h1, h2]

/-- Witness for C2: a group with both a Major and a Patch change yields the
same version as a group with only the Major change (here from (1,2,3),
Public release: both give (2,0,0)), and an Internal-only group keeps the
previous version. -/
theorem C2_severity_priority_witness :
    (ChangeGroup.init ⟨Timestamp.max, ReleaseClass.PUBLIC, none⟩
        [⟨Timestamp.finite 1, ChangeClass.MAJOR, "specification change", "x"⟩,
          ⟨Timestamp.finite 2, ChangeClass.PATCH, "bug fix", "y"⟩]
        ⟨1, 2, 3⟩).semantic_version =
      (ChangeGroup.init ⟨Timestamp.max, ReleaseClass.PUBLIC, none⟩
        [⟨Timestamp.finite 1, ChangeClass.MAJOR, "specification change", "x"⟩]
        ⟨1, 2, 3⟩).semantic_version ∧
    (ChangeGroup.init ⟨Timestamp.max, ReleaseClass.PUBLIC, none⟩
        [⟨Timestamp.finite 1, ChangeClass.INTERNAL, "refactoring", "z"⟩]
        ⟨1, 2, 3⟩).semantic_version = ⟨1, 2, 3⟩ := by
  constructor
  · exact (C2_severity_priority _ _ _).2.2.2.2 _
      ⟨_, List.mem_cons_self _ _, rfl⟩ ⟨_, List.mem_cons_self _ _, rfl⟩
  · exact (C2_severity_priority _ _ _).2.2.2.1 (by simp)

/-! Loop lemmas about `ChangeLog.build_loop`. -/

/-- If some available release is at or after every remaining change, the
partition loop never pops an empty release list. -/
theorem build_loop_isSome (changes : List Change) (cur : Release)
    (rels : List Release) (buf : List Change) (ver : SemanticVersion)
    (acc : List ChangeGroup)
    (h : ∃ r ∈ cur :: rels, ∀ c ∈ changes,
      Timestamp.lt r.datetime c.datetime = false) :
    (ChangeLog.build_loop changes cur rels buf ver acc).isSome := by
  induction changes generalizing cur rels buf ver acc with
  | nil => simp [ChangeLog.build_loop]
  | cons c rest ih =>
    obtain ⟨r, hr, hprop⟩ := h
    rw [ChangeLog.build_loop.eq_def]
    by_cases htrig : Timestamp.lt cur.datetime c.datetime = true
    · rcases List.mem_cons.mp hr with rfl | hr
      · rw [hprop c (List.mem_cons_self _ _)] at htrig
        cases htrig
      · cases rels with
        | nil => cases hr
        | cons next rels =>
          simp only [htrig, if_true]
          exact ih next rels _ _ _
            ⟨r, hr, fun c' hc' => hprop c' (List.mem_cons_of_mem _ hc')⟩
    · simp only [Bool.not_eq_true] at htrig
      simp only [htrig, Bool.false_eq_true, if_false]
      exact ih cur rels _ _ _
        ⟨r, hr, fun c' hc' => hprop c' (List.mem_cons_of_mem _ hc')⟩

/-- Inversion of a successful parse: each stage succeeded in order. -/
theorem parse_changelog_ok_inv (strptime : String → String → Option Timestamp)
    (d : ChangelogData) (rels : List Release) (chs : List Change)
    (h : ChangeLog.parse_changelog strptime d = .ok (rels, chs)) :
    (∃ u, d.utc_offset_hours = some u) ∧
    releases_stage strptime (d.datetime_format.getD DEFAULT_DATETIME_FORMAT)
      d.releases = .ok rels ∧
    (∃ ctd, d.change_types = some ctd ∧ validate_change_types ctd = .ok () ∧
      ∃ cl, d.changes = some cl ∧
        parse_changes strptime (d.datetime_format.getD DEFAULT_DATETIME_FORMAT)
          ctd cl = .ok chs) := by
  unfold ChangeLog.parse_changelog at h
  rcases hu : d.utc_offset_hours with _ | u <;> simp only [hu] at h
  · cases h
  · rcases hr : releases_stage strptime
        (d.datetime_format.getD DEFAULT_DATETIME_FORMAT) d.releases with e | releases <;>
      simp only [hr] at h
    · cases h
    · rcases hct : d.change_types with _ | ctd <;> simp only [hct] at h
      · cases h
      · rcases hv : validate_change_types ctd with e | u2 <;> simp only [hv] at h
        · cases h
        · rcases hcl : d.changes with _ | cl <;> simp only [hcl] at h
          · cases h
          · rcases hpc : parse_changes strptime
                (d.datetime_format.getD DEFAULT_DATETIME_FORMAT) ctd cl with
              e | changes <;> simp only [hpc] at h
            · cases h
            · rw [Except.ok.injEq, Prod.mk.injEq] at h
              obtain ⟨rfl, rfl⟩ := h
              exact ⟨⟨u, rfl⟩, rfl, ctd, rfl, by cases u2; exact hv, cl, rfl, hpc⟩

/-- A successful releases stage always yields a list containing the
synthetic maximum-timestamp private release. -/
theorem releases_stage_mem (strptime : String → String → Option Timestamp)
    (fmt : String) (o : Option (List (String × List (String × String))))
    (rels : List Release) (h : releases_stage strptime fmt o = .ok rels) :
    Release.mk Timestamp.max ReleaseClass.PRIVATE none ∈ rels := by
  rcases o with _ | rl <;> simp only [releases_stage] at h
  · rw [Except.ok.injEq] at h
    subst h
    exact List.mem_singleton.mpr rfl
  · rcases hv : validate_release_datetimes strptime fmt rl with e | u <;>
      simp only [hv] at h
    · cases h
    · rcases hp : parse_releases strptime fmt rl with e | declared <;>
        simp only [hp] at h
      · cases h
      · rw [Except.ok.injEq] at h
        subst h
        exact List.mem_cons_self _ _

/-- C5: a release/change pair produced by `parse_changelog` never exhausts
the release list when the `ChangeLog` is built: the synthetic
maximum-timestamp release is present, no change timestamp is ever strictly
beyond it, so `releases.pop(0)` is never attempted on an empty list. -/
theorem C5_build_never_exhausts_releases
    (strptime : String → String → Option Timestamp) (d : ChangelogData)
    (rels : List Release) (chs : List Change)
    (h : ChangeLog.parse_changelog strptime d = .ok (rels, chs)) :
    (ChangeLog.init rels chs).isSome := by
  have hmem : Release.mk Timestamp.max ReleaseClass.PRIVATE none ∈ rels :=
    releases_stage_mem _ _ _ _ (parse_changelog_ok_inv strptime d rels chs h).2.1
  have hmem2 : Release.mk Timestamp.max ReleaseClass.PRIVATE none ∈
      rels.mergeSort releaseLe := List.mem_mergeSort.mpr hmem
  unfold ChangeLog.init
  rcases hs : rels.mergeSort releaseLe with _ | ⟨cur, rest⟩
  · rw [hs] at hmem2
    cases hmem2
  · rw [hs] at hmem2
    rw [Option.isSome_map']
    exact build_loop_isSome (chs.mergeSort changeLe) cur rest [] _ []
      ⟨_, hmem2, fun c _ => Timestamp.lt_max_false c.datetime⟩

/-- Witness for C5: a minimal valid document (no declared releases, no
changes) parses to the synthetic release alone, and the build succeeds. -/
theorem C5_build_never_exhausts_releases_witness :
    (ChangeLog.init [Release.mk Timestamp.max ReleaseClass.PRIVATE none] []).isSome := by
  exact C5_build_never_exhausts_releases (fun _ _ => none)
    { utc_offset_hours := some 9, changes := some [], change_types := some emptyChangeTypes }
    [Release.mk Timestamp.max ReleaseClass.PRIVATE none] [] rfl

/-- The partition loop stores every group's changes newest-first: the input
changes are walked in ascending order and prepended to the buffer. -/
theorem build_loop_descending (changes : List Change) (cur : Release)
    (rels : List Release) (buf : List Change) (ver : SemanticVersion)
    (acc : List ChangeGroup) (out : List ChangeGroup)
    (hsorted : changes.Pairwise (fun a b => changeLe a b = true))
    (hbuf : descendingChanges buf)
    (hba : ∀ b ∈ buf, ∀ c ∈ changes, Timestamp.lt c.datetime b.datetime = false)
    (hacc : ∀ g ∈ acc, descendingChanges g.changes)
    (hout : ChangeLog.build_loop changes cur rels buf ver acc = some out) :
    ∀ g ∈ out, descendingChanges g.changes := by
  induction changes generalizing cur rels buf ver acc with
  | nil =>
    rw [ChangeLog.build_loop, Option.some.injEq] at hout
    subst hout
    intro g hg
    rcases List.mem_cons.mp hg with rfl | hg
    · exact hbuf
    · exact hacc g hg
  | cons c rest ih =>
    obtain ⟨hhead, htail⟩ := List.pairwise_cons.mp hsorted
    rw [ChangeLog.build_loop.eq_def] at hout
    by_cases htrig : Timestamp.lt cur.datetime c.datetime = true
    · simp only [htrig, if_true] at hout
      cases rels with
      | nil => cases hout
      | cons next rels =>
        refine ih next rels [c] _ _ htail (List.chain'_singleton c) ?_ ?_ hout
        · intro b hb c' hc'
          rw [List.mem_singleton.mp hb]
          exact Timestamp.not_lt_of_le (hhead c' hc')
        · intro g hg
          rcases List.mem_cons.mp hg with rfl | hg
          · exact hbuf
          · exact hacc g hg
    · simp only [Bool.not_eq_true] at htrig
      simp only [htrig, Bool.false_eq_true, if_false] at hout
      refine ih cur rels (c :: buf) _ _ htail ?_ ?_ hacc hout
      · refine List.chain'_cons'.mpr ⟨?_, hbuf⟩
        intro b hb
        exact hba b (List.mem_of_mem_head? hb) c (List.mem_cons_self _ _)
      · intro b hb c' hc'
        rcases List.mem_cons.mp hb with rfl | hb
        · exact Timestamp.not_lt_of_le (hhead c' hc')
        · exact hba b hb c' (List.mem_cons_of_mem _ hc')

/-- C3 as stated is false: built from one release and two patch changes at
times 1 and 2, the single group stores its changes newest-first
([time 2, time 1]), which is not ascending. -/
theorem C3_counterexample :
    ChangeLog.init [c3_release] [c3_change1, c3_change2] =
      some ⟨[⟨c3_release, [c3_change2, c3_change1], ⟨0, 0, 1⟩⟩]⟩ ∧
    ¬ ascendingChanges [c3_change2, c3_change1] := by
  constructor
  · have h1 : List.mergeSort [c3_change1, c3_change2] changeLe =
        [c3_change1, c3_change2] := List.mergeSort_of_sorted (by decide)
    have h2 : List.mergeSort [c3_release] releaseLe = [c3_release] :=
      List.mergeSort_of_sorted (by decide)
    unfold ChangeLog.init
    rw [h1, h2]
    rfl
  · intro hasc
    unfold ascendingChanges at hasc
    rw [List.chain'_cons] at hasc
    exact absurd hasc.1 (by simp [c3_change2, c3_change1, Timestamp.le])

/-- C3 amended: within every group of a built ChangeLog the stored changes
are in descending (newest-first) timestamp order, and the rendered
changelog lists each group's change lines in exactly that stored order. -/
theorem C3_amended_changes_descending (rels : List Release) (chs : List Change)
    (cl : ChangeLog) (h : ChangeLog.init rels chs = some cl) :
    (∀ g ∈ cl.change_groups, descendingChanges g.changes) ∧
    ChangeLog.print_changelog cl = (cl.change_groups.map ChangeGroup.render).flatten := by
  refine ⟨?_, rfl⟩
  unfold ChangeLog.init at h
  rcases hs : rels.mergeSort releaseLe with _ | ⟨cur, rest⟩ <;> simp only [hs] at h
  · cases h
  · rcases hb : ChangeLog.build_loop (chs.mergeSort changeLe) cur rest []
        { major := 0, minor := 0, patch := 0 } [] with _ | out <;>
      simp only [hb, Option.map_none', Option.map_some'] at h
    · cases h
    · rw [Option.some.injEq] at h
      subst h
      intro g hg
      exact build_loop_descending (chs.mergeSort changeLe) cur rest [] _ [] out
        (List.sorted_mergeSort changeLe_trans changeLe_total chs)
        List.chain'_nil (by intro b hb; cases hb) (by intro g hg; cases hg) hb g hg

/-- Witness for the amended C3: in the concrete build of the
counterexample, the stored group changes [time 2, time 1] are descending. -/
theorem C3_amended_changes_descending_witness :
    descendingChanges [c3_change2, c3_change1] := by
  have hinit : ChangeLog.init [c3_release] [c3_change1, c3_change2] =
      some ⟨[⟨c3_release, [c3_change2, c3_change1], ⟨0, 0, 1⟩⟩]⟩ := by
    have h1 : List.mergeSort [c3_change1, c3_change2] changeLe =
        [c3_change1, c3_change2] := List.mergeSort_of_sorted (by decide)
    have h2 : List.mergeSort [c3_release] releaseLe = [c3_release] :=
      List.mergeSort_of_sorted (by decide)
    unfold ChangeLog.init
    rw [h1, h2]
    rfl
  have h := (C3_amended_changes_descending [c3_release] [c3_change1, c3_change2]
    ⟨[⟨c3_release, [c3_change2, c3_change1], ⟨0, 0, 1⟩⟩]⟩ hinit).1
  exact h ⟨c3_release, [c3_change2, c3_change1], ⟨0, 0, 1⟩⟩ (List.mem_singleton.mpr rfl)

/-- The partition loop preserves the lower-bound chain: every change in a
group is strictly after the previous (next-older) group's release. -/
theorem build_loop_lower_bound (changes : List Change) (cur : Release)
    (rels : List Release) (buf : List Change) (ver : SemanticVersion)
    (acc : List ChangeGroup) (out : List ChangeGroup)
    (hsorted : changes.Pairwise (fun a b => changeLe a b = true))
    (hacc : acc.Chain' groupBound)
    (hbufacc : ∀ gh ∈ acc.head?, ∀ c ∈ buf,
      Timestamp.lt gh.release.datetime c.datetime = true)
    (hremacc : ∀ gh ∈ acc.head?, ∀ c ∈ changes,
      Timestamp.lt gh.release.datetime c.datetime = true)
    (hout : ChangeLog.build_loop changes cur rels buf ver acc = some out) :
    out.Chain' groupBound := by
  induction changes generalizing cur rels buf ver acc with
  | nil =>
    rw [ChangeLog.build_loop, Option.some.injEq] at hout
    subst hout
    exact List.chain'_cons'.mpr ⟨fun gh hgh c hc => hbufacc gh hgh c hc, hacc⟩
  | cons c rest ih =>
    obtain ⟨hhead, htail⟩ := List.pairwise_cons.mp hsorted
    rw [ChangeLog.build_loop.eq_def] at hout
    by_cases htrig : Timestamp.lt cur.datetime c.datetime = true
    · simp only [htrig, if_true] at hout
      cases rels with
      | nil => cases hout
      | cons next rels2 =>
        refine ih next rels2 [c] _ _ htail
          (List.chain'_cons'.mpr ⟨fun gh hgh c' hc' => hbufacc gh hgh c' hc', hacc⟩)
          ?_ ?_ hout
        · intro gh hgh c' hc'
          simp only [List.head?_cons, Option.mem_def, Option.some.injEq] at hgh
          subst hgh
          rw [List.mem_singleton.mp hc']
          exact htrig
        · intro gh hgh c' hc'
          simp only [List.head?_cons, Option.mem_def, Option.some.injEq] at hgh
          subst hgh
          exact Timestamp.lt_of_lt_of_le htrig (hhead c' hc')
    · simp only [Bool.not_eq_true] at htrig
      simp only [htrig, Bool.false_eq_true, if_false] at hout
      refine ih cur rels (c :: buf) _ _ htail hacc ?_ ?_ hout
      · intro gh hgh c' hc'
        rcases List.mem_cons.mp hc' with rfl | hc'
        · exact hremacc gh hgh c' (List.mem_cons_self _ _)
        · exact hbufacc gh hgh c' hc'
      · intro gh hgh c' hc'
        exact hremacc gh hgh c' (List.mem_cons_of_mem _ hc')

/-- C4 as stated is false: with declared releases at times 1 and 2 and a
single change at time 3, only one release is advanced, so the change lands
in the group of the release at time 2, strictly before the change. -/
theorem C4_counterexample :
    ChangeLog.init [c4_release1, c4_release2, c4_releaseMax] [c4_change] =
      some ⟨[⟨c4_release2, [c4_change], ⟨0, 0, 1⟩⟩, ⟨c4_release1, [], ⟨0, 0, 0⟩⟩]⟩ ∧
    Timestamp.lt c4_release2.datetime c4_change.datetime = true := by
  constructor
  · have h1 : List.mergeSort [c4_release1, c4_release2, c4_releaseMax] releaseLe =
        [c4_release1, c4_release2, c4_releaseMax] := List.mergeSort_of_sorted (by decide)
    have h2 : List.mergeSort [c4_change] changeLe = [c4_change] :=
      List.mergeSort_of_sorted (by decide)
    unfold ChangeLog.init
    rw [h1, h2]
    rfl
  · rfl

/-- C4 amended: between adjacent groups (newer first) of a built ChangeLog,
every change of the newer group has a timestamp strictly greater than the
older group's release timestamp; the earliest group has no lower bound.
The claim's upper bound (change timestamp at most its own group's release
timestamp) does not hold in general. -/
theorem C4_amended_lower_bound (rels : List Release) (chs : List Change)
    (cl : ChangeLog) (h : ChangeLog.init rels chs = some cl) :
    cl.change_groups.Chain' groupBound := by
  unfold ChangeLog.init at h
  rcases hs : rels.mergeSort releaseLe with _ | ⟨cur, rest⟩ <;> simp only [hs] at h
  · cases h
  · rcases hb : ChangeLog.build_loop (chs.mergeSort changeLe) cur rest []
        { major := 0, minor := 0, patch := 0 } [] with _ | out <;>
      simp only [hb, Option.map_none', Option.map_some'] at h
    · cases h
    · rw [Option.some.injEq] at h
      subst h
      exact build_loop_lower_bound (chs.mergeSort changeLe) cur rest [] _ [] out
        (List.sorted_mergeSort changeLe_trans changeLe_total chs)
        List.chain'_nil (by intro gh hgh; simp at hgh)
        (by intro gh hgh; simp at hgh) hb

/-- Witness for the amended C4: in a concrete two-group build, the single
change of the newer group is strictly after the older group's release. -/
theorem C4_amended_lower_bound_witness :
    List.Chain' groupBound
      [⟨c4_release2, [c4_change], ⟨0, 0, 1⟩⟩, ⟨c4_release1, [], ⟨0, 0, 0⟩⟩] := by
  have hinit : ChangeLog.init [c4_release1, c4_release2, c4_releaseMax] [c4_change] =
      some ⟨[⟨c4_release2, [c4_change], ⟨0, 0, 1⟩⟩, ⟨c4_release1, [], ⟨0, 0, 0⟩⟩]⟩ := by
    have h1 : List.mergeSort [c4_release1, c4_release2, c4_releaseMax] releaseLe =
        [c4_release1, c4_release2, c4_releaseMax] := List.mergeSort_of_sorted (by decide)
    have h2 : List.mergeSort [c4_change] changeLe = [c4_change] :=
      List.mergeSort_of_sorted (by decide)
    unfold ChangeLog.init
    rw [h1, h2]
    rfl
  exact C4_amended_lower_bound [c4_release1, c4_release2, c4_releaseMax] [c4_change]
    ⟨[⟨c4_release2, [c4_change], ⟨0, 0, 1⟩⟩, ⟨c4_release1, [], ⟨0, 0, 0⟩⟩]⟩ hinit

/-- `ChangeGroup.__init__` changes the inherited version by at most one
increment. -/
theorem ChangeGroup.init_versionStep (release : Release) (changes : List Change)
    (prev : SemanticVersion) :
    versionStep prev (ChangeGroup.init release changes prev).semantic_version := by
  rw [ChangeGroup.init_semantic_version]
  unfold versionStep
  split
  · split
    · exact Or.inr (Or.inr (Or.inl rfl))
    · exact Or.inr (Or.inr (Or.inr rfl))
  · split
    · exact Or.inr (Or.inr (Or.inl rfl))
    · split
      · exact Or.inr (Or.inl rfl)
      · exact Or.inl rfl

theorem versionStep_lexLe {prev next : SemanticVersion} (h : versionStep prev next) :
    prev.lexLe next := by
  rcases h with rfl | rfl | rfl | rfl <;>
    simp [SemanticVersion.lexLe, SemanticVersion.increment_patch,
      SemanticVersion.increment_minor, SemanticVersion.increment_major]

theorem versionStep_major_reset {prev next : SemanticVersion} (h : versionStep prev next)
    (hm : prev.major < next.major) : next.minor = 0 ∧ next.patch = 0 := by
  rcases h with rfl | rfl | rfl | rfl <;>
    simp_all [SemanticVersion.increment_patch, SemanticVersion.increment_minor,
      SemanticVersion.increment_major]

theorem versionStep_minor_reset {prev next : SemanticVersion} (h : versionStep prev next)
    (hm : prev.major = next.major) (hmi : prev.minor < next.minor) : next.patch = 0 := by
  rcases h with rfl | rfl | rfl | rfl <;>
    simp_all [SemanticVersion.increment_patch, SemanticVersion.increment_minor,
      SemanticVersion.increment_major]

/-- The partition loop threads each closed group's version into the next
group, so adjacent groups are related by a single version step. -/
theorem build_loop_version_chain (changes : List Change) (cur : Release)
    (rels : List Release) (buf : List Change) (ver : SemanticVersion)
    (acc : List ChangeGroup) (out : List ChangeGroup)
    (hacc : acc.Chain' (fun a b => versionStep b.semantic_version a.semantic_version))
    (hver : ∀ gh ∈ acc.head?, ver = gh.semantic_version)
    (hout : ChangeLog.build_loop changes cur rels buf ver acc = some out) :
    out.Chain' (fun a b => versionStep b.semantic_version a.semantic_version) := by
  induction changes generalizing cur rels buf ver acc with
  | nil =>
    rw [ChangeLog.build_loop, Option.some.injEq] at hout
    subst hout
    refine List.chain'_cons'.mpr ⟨?_, hacc⟩
    intro gh hgh
    rw [← hver gh hgh]
    exact ChangeGroup.init_versionStep cur buf ver
  | cons c rest ih =>
    rw [ChangeLog.build_loop.eq_def] at hout
    by_cases htrig : Timestamp.lt cur.datetime c.datetime = true
    · simp only [htrig, if_true] at hout
      cases rels with
      | nil => cases hout
      | cons next rels2 =>
        refine ih next rels2 [c] _ _ ?_ ?_ hout
        · refine List.chain'_cons'.mpr ⟨?_, hacc⟩
          intro gh hgh
          rw [← hver gh hgh]
          exact ChangeGroup.init_versionStep cur buf ver
        · intro gh hgh
          simp only [List.head?_cons, Option.mem_def, Option.some.injEq] at hgh
          subst hgh
          rfl
    · simp only [Bool.not_eq_true] at htrig
      simp only [htrig, Bool.false_eq_true, if_false] at hout
      exact ih cur rels (c :: buf) ver acc hacc hver hout

/-- C6 as stated is false: versions are not monotone under the
component-wise (product) order, because a major bump resets minor and
patch.  Concretely, a minor change then a major change under public
releases yield successive versions (0,1,0) then (1,0,0), and
(0,1,0) ≤ (1,0,0) fails component-wise in the minor component. -/
theorem C6_counterexample :
    ChangeLog.init [c6_release1, c6_release2, c6_releaseMax]
        [c6_minorChange, c6_majorChange] =
      some ⟨[⟨c6_release2, [c6_majorChange], ⟨1, 0, 0⟩⟩,
        ⟨c6_release1, [c6_minorChange], ⟨0, 1, 0⟩⟩]⟩ ∧
    ¬ SemanticVersion.componentwiseLe ⟨0, 1, 0⟩ ⟨1, 0, 0⟩ := by
  constructor
  · have h1 : List.mergeSort [c6_release1, c6_release2, c6_releaseMax] releaseLe =
        [c6_release1, c6_release2, c6_releaseMax] := List.mergeSort_of_sorted (by decide)
    have h2 : List.mergeSort [c6_minorChange, c6_majorChange] changeLe =
        [c6_minorChange, c6_majorChange] := List.mergeSort_of_sorted (by decide)
    unfold ChangeLog.init
    rw [h1, h2]
    rfl
  · intro h
    simp [SemanticVersion.componentwiseLe] at h

/-- C6 amended: scanning oldest-to-newest, successive group versions are
monotone under the lexicographic order on (major, minor, patch), and
whenever the major component increases in a step the new minor and patch
are 0 (and whenever minor increases with major unchanged, patch is 0). -/
theorem C6_amended_lex_monotone (rels : List Release) (chs : List Change)
    (cl : ChangeLog) (h : ChangeLog.init rels chs = some cl) :
    cl.change_groups.Chain' (fun newer older =>
      SemanticVersion.lexLe older.semantic_version newer.semantic_version ∧
      (older.semantic_version.major < newer.semantic_version.major →
        newer.semantic_version.minor = 0 ∧ newer.semantic_version.patch = 0) ∧
      (older.semantic_version.major = newer.semantic_version.major →
        older.semantic_version.minor < newer.semantic_version.minor →
        newer.semantic_version.patch = 0)) := by
  have hchain : cl.change_groups.Chain'
      (fun a b => versionStep b.semantic_version a.semantic_version) := by
    unfold ChangeLog.init at h
    rcases hs : rels.mergeSort releaseLe with _ | ⟨cur, rest⟩ <;> simp only [hs] at h
    · cases h
    · rcases hb : ChangeLog.build_loop (chs.mergeSort changeLe) cur rest []
          { major := 0, minor := 0, patch := 0 } [] with _ | out <;>
        simp only [hb, Option.map_none', Option.map_some'] at h
      · cases h
      · rw [Option.some.injEq] at h
        subst h
        exact build_loop_version_chain (chs.mergeSort changeLe) cur rest [] _ [] out
          List.chain'_nil (by intro gh hgh; simp at hgh) hb
  exact List.Chain'.imp
    (fun a b hstep =>
      ⟨versionStep_lexLe hstep, fun hm => versionStep_major_reset hstep hm,
        fun hm hmi => versionStep_minor_reset hstep hm hmi⟩)
    hchain

/-- Witness for the amended C6: the concrete two-group build with versions
(0,1,0) then (1,0,0) satisfies the lexicographic chain. -/
theorem C6_amended_lex_monotone_witness :
    List.Chain' (fun newer older : ChangeGroup =>
      SemanticVersion.lexLe older.semantic_version newer.semantic_version ∧
      (older.semantic_version.major < newer.semantic_version.major →
        newer.semantic_version.minor = 0 ∧ newer.semantic_version.patch = 0) ∧
      (older.semantic_version.major = newer.semantic_version.major →
        older.semantic_version.minor < newer.semantic_version.minor →
        newer.semantic_version.patch = 0))
      [⟨c6_release2, [c6_majorChange], ⟨1, 0, 0⟩⟩,
        ⟨c6_release1, [c6_minorChange], ⟨0, 1, 0⟩⟩] := by
  have hinit : ChangeLog.init [c6_release1, c6_release2, c6_releaseMax]
      [c6_minorChange, c6_majorChange] =
      some ⟨[⟨c6_release2, [c6_majorChange], ⟨1, 0, 0⟩⟩,
        ⟨c6_release1, [c6_minorChange], ⟨0, 1, 0⟩⟩]⟩ := by
    have h1 : List.mergeSort [c6_release1, c6_release2, c6_releaseMax] releaseLe =
        [c6_release1, c6_release2, c6_releaseMax] := List.mergeSort_of_sorted (by decide)
    have h2 : List.mergeSort [c6_minorChange, c6_majorChange] changeLe =
        [c6_minorChange, c6_majorChange] := List.mergeSort_of_sorted (by decide)
    unfold ChangeLog.init
    rw [h1, h2]
    rfl
  exact C6_amended_lex_monotone [c6_release1, c6_release2, c6_releaseMax]
    [c6_minorChange, c6_majorChange]
    ⟨[⟨c6_release2, [c6_majorChange], ⟨1, 0, 0⟩⟩,
      ⟨c6_release1, [c6_minorChange], ⟨0, 1, 0⟩⟩]⟩ hinit

/-- In a sorted nonempty list the head is a minimum. -/
theorem pairwise_head_le {r0 : Release} {rest : List Release}
    (h : (r0 :: rest).Pairwise (fun a b => releaseLe a b = true)) :
    ∀ r ∈ r0 :: rest, releaseLe r0 r = true := by
  intro r hr
  rcases List.mem_cons.mp hr with rfl | hr
  · exact releaseLe_refl r
  · exact (List.pairwise_cons.mp h).1 r hr

/-- In a sorted list the last element is a maximum. -/
theorem pairwise_getLast_ge {l : List Change}
    (h : l.Pairwise (fun a b => changeLe a b = true)) (a : Change)
    (ha : l.getLast? = some a) : ∀ x ∈ l, changeLe x a = true := by
  induction l with
  | nil => cases ha
  | cons b t ih =>
    cases t with
    | nil =>
      rw [List.getLast?_singleton, Option.some.injEq] at ha
      subst ha
      intro x hx
      rw [List.mem_singleton.mp hx]
      exact Timestamp.le_refl _
    | cons b2 t2 =>
      rw [List.getLast?_cons_cons] at ha
      obtain ⟨hb, ht⟩ := List.pairwise_cons.mp h
      intro x hx
      rcases List.mem_cons.mp hx with rfl | hx
      · exact hb a (List.mem_of_getLast?_eq_some ha)
      · exact ih ht ha x hx

/-- Every group produced by the partition loop has, as its release, either
the initial (earliest) release or one whose popping was triggered by a
change strictly beyond every strictly-earlier release. -/
theorem build_loop_release_origin (allRels : List Release) (allChs : List Change)
    (r0 : Release) (changes : List Change) (cur : Release) (rels : List Release)
    (buf : List Change) (ver : SemanticVersion) (acc : List ChangeGroup)
    (out : List ChangeGroup)
    (hS : (cur :: rels).Pairwise (fun a b => releaseLe a b = true))
    (hCover : ∀ r ∈ allRels, releaseLe r cur = true ∨ r ∈ rels)
    (hRem : ∀ c ∈ changes, c ∈ allChs)
    (hQ : earliestOrTriggered allRels allChs r0 cur)
    (hAcc : ∀ g ∈ acc, earliestOrTriggered allRels allChs r0 g.release)
    (hout : ChangeLog.build_loop changes cur rels buf ver acc = some out) :
    ∀ g ∈ out, earliestOrTriggered allRels allChs r0 g.release := by
  induction changes generalizing cur rels buf ver acc with
  | nil =>
    rw [ChangeLog.build_loop, Option.some.injEq] at hout
    subst hout
    intro g hg
    rcases List.mem_cons.mp hg with rfl | hg
    · exact hQ
    · exact hAcc g hg
  | cons c rest ih =>
    rw [ChangeLog.build_loop.eq_def] at hout
    by_cases htrig : Timestamp.lt cur.datetime c.datetime = true
    · simp only [htrig, if_true] at hout
      cases rels with
      | nil => cases hout
      | cons next rels2 =>
        obtain ⟨hcurle, hStail⟩ := List.pairwise_cons.mp hS
        refine ih next rels2 [c] _ _ hStail ?_
          (fun c' hc' => hRem c' (List.mem_cons_of_mem _ hc')) ?_ ?_ hout
        · intro r hr
          rcases hCover r hr with hle | hm
          · exact Or.inl (releaseLe_trans r cur next hle
              (hcurle next (List.mem_cons_self _ _)))
          · rcases List.mem_cons.mp hm with rfl | hm
            · exact Or.inl (releaseLe_refl r)
            · exact Or.inr hm
        · refine Or.inr ⟨c, hRem c (List.mem_cons_self _ _), ?_⟩
          intro r hr hlt
          rcases hCover r hr with hle | hm
          · exact Timestamp.lt_of_le_of_lt hle htrig
          · rcases List.mem_cons.mp hm with rfl | hm
            · rw [Timestamp.lt_irrefl] at hlt
              cases hlt
            · have hle2 : releaseLe next r = true :=
                (List.pairwise_cons.mp hStail).1 r hm
              rw [Timestamp.not_lt_of_le hle2] at hlt
              cases hlt
        · intro g hg
          rcases List.mem_cons.mp hg with rfl | hg
          · exact hQ
          · exact hAcc g hg
    · simp only [Bool.not_eq_true] at htrig
      simp only [htrig, Bool.false_eq_true, if_false] at hout
      exact ih cur rels (c :: buf) ver acc hS hCover
        (fun c' hc' => hRem c' (List.mem_cons_of_mem _ hc')) hQ hAcc hout

/-- The newest group's release bounds every group's release from above. -/
theorem build_loop_head_release_max (changes : List Change) (cur : Release)
    (rels : List Release) (buf : List Change) (ver : SemanticVersion)
    (acc : List ChangeGroup) (out : List ChangeGroup)
    (hS : (cur :: rels).Pairwise (fun a b => releaseLe a b = true))
    (hAccLe : ∀ g ∈ acc, releaseLe g.release cur = true)
    (hout : ChangeLog.build_loop changes cur rels buf ver acc = some out) :
    ∀ gh ∈ out.head?, ∀ g ∈ out, releaseLe g.release gh.release = true := by
  induction changes generalizing cur rels buf ver acc with
  | nil =>
    rw [ChangeLog.build_loop, Option.some.injEq] at hout
    subst hout
    intro gh hgh g hg
    simp only [List.head?_cons, Option.mem_def, Option.some.injEq] at hgh
    subst hgh
    rcases List.mem_cons.mp hg with rfl | hg
    · exact releaseLe_refl _
    · exact hAccLe g hg
  | cons c rest ih =>
    rw [ChangeLog.build_loop.eq_def] at hout
    by_cases htrig : Timestamp.lt cur.datetime c.datetime = true
    · simp only [htrig, if_true] at hout
      cases rels with
      | nil => cases hout
      | cons next rels2 =>
        obtain ⟨hcurle, hStail⟩ := List.pairwise_cons.mp hS
        refine ih next rels2 [c] _ _ hStail ?_ hout
        intro g hg
        rcases List.mem_cons.mp hg with rfl | hg
        · exact hcurle next (List.mem_cons_self _ _)
        · exact releaseLe_trans _ cur next (hAccLe g hg)
            (hcurle next (List.mem_cons_self _ _))
    · simp only [Bool.not_eq_true] at htrig
      simp only [htrig, Bool.false_eq_true, if_false] at hout
      exact ih cur rels (c :: buf) ver acc hS hAccLe hout

/-- The last change of the walked list always lands in the newest group. -/
theorem build_loop_last_change (changes : List Change) (cur : Release)
    (rels : List Release) (buf : List Change) (ver : SemanticVersion)
    (acc : List ChangeGroup) (out : List ChangeGroup) (c0 : Change)
    (h : changes.getLast? = some c0 ∨ (changes = [] ∧ c0 ∈ buf))
    (hout : ChangeLog.build_loop changes cur rels buf ver acc = some out) :
    ∀ gh ∈ out.head?, c0 ∈ gh.changes := by
  induction changes generalizing cur rels buf ver acc with
  | nil =>
    rw [ChangeLog.build_loop, Option.some.injEq] at hout
    subst hout
    rcases h with h | ⟨_, hc0⟩
    · cases h
    · intro gh hgh
      simp only [List.head?_cons, Option.mem_def, Option.some.injEq] at hgh
      subst hgh
      exact hc0
  | cons c rest ih =>
    rcases h with h | ⟨hc, _⟩
    · rw [ChangeLog.build_loop.eq_def] at hout
      by_cases htrig : Timestamp.lt cur.datetime c.datetime = true
      · simp only [htrig, if_true] at hout
        cases rels with
        | nil => cases hout
        | cons next rels2 =>
          cases rest with
          | nil =>
            rw [List.getLast?_singleton, Option.some.injEq] at h
            subst h
            exact ih next rels2 [c] _ _
              (Or.inr ⟨rfl, List.mem_singleton.mpr rfl⟩) hout
          | cons c2 rest2 =>
            rw [List.getLast?_cons_cons] at h
            exact ih next rels2 [c] _ _ (Or.inl h) hout
      · simp only [Bool.not_eq_true] at htrig
        simp only [htrig, Bool.false_eq_true, if_false] at hout
        cases rest with
        | nil =>
          rw [List.getLast?_singleton, Option.some.injEq] at h
          subst h
          exact ih cur rels (c :: buf) _ _
            (Or.inr ⟨rfl, List.mem_cons_self _ _⟩) hout
        | cons c2 rest2 =>
          rw [List.getLast?_cons_cons] at h
          exact ih cur rels (c :: buf) _ _ (Or.inl h) hout
    · cases hc

/-- C9: (i) every group's release is the chronologically earliest release
or was reached by a change strictly beyond every strictly-earlier release;
(ii) when there are changes, the newest group holds a latest change and its
release bounds every appearing release from above (so declared releases
strictly later than the release holding the last change never appear);
(iii) with no changes the ChangeLog is a single group on the earliest
release with version (0,0,0). -/
theorem C9_release_group_structure (rels : List Release) (chs : List Change)
    (cl : ChangeLog) (h : ChangeLog.init rels chs = some cl) :
    (∀ g ∈ cl.change_groups,
      (g.release ∈ rels ∧ ∀ r ∈ rels, releaseLe g.release r = true) ∨
      ∃ c ∈ chs, ∀ r ∈ rels,
        Timestamp.lt r.datetime g.release.datetime = true →
          Timestamp.lt r.datetime c.datetime = true) ∧
    (chs ≠ [] → ∀ gh ∈ cl.change_groups.head?,
      (∃ c ∈ gh.changes, ∀ x ∈ chs, changeLe x c = true) ∧
      ∀ g ∈ cl.change_groups, releaseLe g.release gh.release = true) ∧
    (chs = [] → ∃ r0, (r0 ∈ rels ∧ ∀ r ∈ rels, releaseLe r0 r = true) ∧
      cl.change_groups = [⟨r0, [], ⟨0, 0, 0⟩⟩]) := by
  unfold ChangeLog.init at h
  rcases hs : rels.mergeSort releaseLe with _ | ⟨cur, rest⟩ <;> simp only [hs] at h
  · cases h
  · rcases hb : ChangeLog.build_loop (chs.mergeSort changeLe) cur rest []
        { major := 0, minor := 0, patch := 0 } [] with _ | out <;>
      simp only [hb, Option.map_none', Option.map_some'] at h
    · cases h
    · rw [Option.some.injEq] at h
      subst h
      have hSsorted : (cur :: rest).Pairwise (fun a b => releaseLe a b = true) := by
        rw [← hs]
        exact List.sorted_mergeSort releaseLe_trans releaseLe_total rels
      have hmemrels : ∀ r ∈ rels, r ∈ cur :: rest := by
        intro r hr
        rw [← hs]
        exact List.mem_mergeSort.mpr hr
      have hmemback : ∀ r, r ∈ cur :: rest → r ∈ rels := by
        intro r hr
        rw [← hs] at hr
        exact List.mem_mergeSort.mp hr
      refine ⟨?_, ?_, ?_⟩
      · intro g hg
        have hCover : ∀ r ∈ rels, releaseLe r cur = true ∨ r ∈ rest := by
          intro r hr
          rcases List.mem_cons.mp (hmemrels r hr) with rfl | hr2
          · exact Or.inl (releaseLe_refl r)
          · exact Or.inr hr2
        have horigin := build_loop_release_origin rels chs cur
          (chs.mergeSort changeLe) cur rest [] _ [] out hSsorted hCover
          (fun c hc => List.mem_mergeSort.mp hc) (Or.inl rfl)
          (by intro g2 hg2; cases hg2) hb g hg
        rcases horigin with heq | ⟨c, hc, hcond⟩
        · left
          constructor
          · exact hmemback g.release (heq ▸ List.mem_cons_self cur rest)
          · intro r hr
            rw [heq]
            exact pairwise_head_le hSsorted r (hmemrels r hr)
        · exact Or.inr ⟨c, hc, hcond⟩
      · intro hne gh hgh
        constructor
        · have hsne : chs.mergeSort changeLe ≠ [] := by
            intro hnil
            apply hne
            have hlen := @List.length_mergeSort Change changeLe chs
            rw [hnil] at hlen
            exact List.length_eq_zero.mp hlen.symm
          obtain ⟨c0, hc0⟩ := Option.isSome_iff_exists.mp
            (List.getLast?_isSome.mpr hsne)
          refine ⟨c0, build_loop_last_change _ cur rest [] _ [] out c0
            (Or.inl hc0) hb gh hgh, ?_⟩
          intro x hx
          exact pairwise_getLast_ge
            (List.sorted_mergeSort changeLe_trans changeLe_total chs) c0 hc0 x
            (List.mem_mergeSort.mpr hx)
        · exact build_loop_head_release_max _ cur rest [] _ [] out hSsorted
            (by intro g2 hg2; cases hg2) hb gh hgh
      · intro hnil
        subst hnil
        refine ⟨cur, ⟨hmemback cur (List.mem_cons_self cur rest), ?_⟩, ?_⟩
        · intro r hr
          exact pairwise_head_le hSsorted r (hmemrels r hr)
        · rw [List.mergeSort_nil, ChangeLog.build_loop, Option.some.injEq] at hb
          rw [← hb]
          rfl

/-- Witness for C9: two releases and no changes give exactly one group, on
the earlier release, with version (0,0,0). -/
theorem C9_release_group_structure_witness :
    (∀ g ∈ (ChangeLog.mk [⟨c6_release1, [], ⟨0, 0, 0⟩⟩]).change_groups,
      (g.release ∈ [c6_release1, c6_releaseMax] ∧
        ∀ r ∈ [c6_release1, c6_releaseMax], releaseLe g.release r = true) ∨
      ∃ c ∈ ([] : List Change), ∀ r ∈ [c6_release1, c6_releaseMax],
        Timestamp.lt r.datetime g.release.datetime = true →
          Timestamp.lt r.datetime c.datetime = true) ∧
    (([] : List Change) ≠ [] →
      ∀ gh ∈ (ChangeLog.mk [⟨c6_release1, [], ⟨0, 0, 0⟩⟩]).change_groups.head?,
      (∃ c ∈ gh.changes, ∀ x ∈ ([] : List Change), changeLe x c = true) ∧
      ∀ g ∈ (ChangeLog.mk [⟨c6_release1, [], ⟨0, 0, 0⟩⟩]).change_groups,
        releaseLe g.release gh.release = true) ∧
    (([] : List Change) = [] → ∃ r0, (r0 ∈ [c6_release1, c6_releaseMax] ∧
      ∀ r ∈ [c6_release1, c6_releaseMax], releaseLe r0 r = true) ∧
      (ChangeLog.mk [⟨c6_release1, [], ⟨0, 0, 0⟩⟩]).change_groups =
        [⟨r0, [], ⟨0, 0, 0⟩⟩]) := by
  have hinit : ChangeLog.init [c6_release1, c6_releaseMax] [] =
      some (ChangeLog.mk [⟨c6_release1, [], ⟨0, 0, 0⟩⟩]) := by
    have h1 : List.mergeSort [c6_release1, c6_releaseMax] releaseLe =
        [c6_release1, c6_releaseMax] := List.mergeSort_of_sorted (by decide)
    unfold ChangeLog.init
    rw [List.mergeSort_nil, h1]
    rfl
  exact C9_release_group_structure [c6_release1, c6_releaseMax] []
    (ChangeLog.mk [⟨c6_release1, [], ⟨0, 0, 0⟩⟩]) hinit

/-- C7 as stated is false: a document that is valid except for the absent
`changes` key fails with `KeyError` — a Python built-in that is not a
`FormatError` subclass, so it is handled by the catch-all branch (exit
code 99), not as a format error. -/
theorem C7_counterexample :
    ChangeLog.parse_changelog (fun _ _ => none)
        { utc_offset_hours := some 9, change_types := some emptyChangeTypes } =
      .error (.keyError "changes") ∧
    (ParseError.keyError "changes").isFormatError = false :=
  ⟨rfl, rfl⟩

/-- C7 amended: for every document that is valid except that `changes` is
absent (validity witnessed by the same document with an empty `changes`
table parsing successfully), parsing fails with the unclassified
`KeyError`, not with a format error. -/
theorem C7_amended_missing_changes_unclassified
    (strptime : String → String → Option Timestamp) (d : ChangelogData)
    (hchanges : d.changes = none)
    (hok : ∃ out, ChangeLog.parse_changelog strptime
      { d with changes := some [] } = .ok out) :
    ChangeLog.parse_changelog strptime d = .error (.keyError "changes") ∧
    (ParseError.keyError "changes").isFormatError = false := by
  refine ⟨?_, rfl⟩
  obtain ⟨⟨rels, chs⟩, hout⟩ := hok
  obtain ⟨⟨u, hu⟩, hrel, ctd, hct, hv, _⟩ :=
    parse_changelog_ok_inv strptime { d with changes := some [] } rels chs hout
  have hu2 : d.utc_offset_hours = some u := hu
  have hrel2 : releases_stage strptime
      (d.datetime_format.getD DEFAULT_DATETIME_FORMAT) d.releases = .ok rels := hrel
  have hct2 : d.change_types = some ctd := hct
  unfold ChangeLog.parse_changelog
  simp only [hu2, hrel2, hct2, hv, hchanges]

/-- Witness for the amended C7: the concrete document with `utc offset
hours`, a valid `change types` table and no `changes` key fails with the
unclassified `KeyError`. -/
theorem C7_amended_missing_changes_unclassified_witness :
    ChangeLog.parse_changelog (fun _ _ => none)
        { utc_offset_hours := some 9, change_types := some emptyChangeTypes,
          releases := none, datetime_format := none } =
      .error (.keyError "changes") ∧
    (ParseError.keyError "changes").isFormatError = false :=
  C7_amended_missing_changes_unclassified (fun _ _ => none)
    { utc_offset_hours := some 9, change_types := some emptyChangeTypes } rfl
    ⟨([Release.mk Timestamp.max ReleaseClass.PRIVATE none], []), rfl⟩

/-- When every release datetime string parses, the validation loop
succeeds. -/
theorem validate_release_datetimes_ok (strptime : String → String → Option Timestamp)
    (fmt : String) (rl : List (String × List (String × String)))
    (hdt : ∀ p ∈ rl, (strptime fmt p.1).isSome = true) :
    validate_release_datetimes strptime fmt rl = .ok () := by
  induction rl with
  | nil => rfl
  | cons q rest ih =>
    obtain ⟨ds, defn⟩ := q
    obtain ⟨dt, hdt1⟩ := Option.isSome_iff_exists.mp (hdt (ds, defn) (List.mem_cons_self _ _))
    simp only [validate_release_datetimes, hdt1]
    exact ih (fun p hp => hdt p (List.mem_cons_of_mem _ hp))

/-- If all release datetimes parse, all definitions are nonempty, and some
definition's first entry carries a visibility label outside
{public, private}, then the release loop raises
`InvalidReleaseClassError` (for some such invalid label). -/
theorem parse_releases_first_invalid (strptime : String → String → Option Timestamp)
    (fmt : String) (rl : List (String × List (String × String)))
    (hdt : ∀ p ∈ rl, (strptime fmt p.1).isSome = true)
    (hne : ∀ p ∈ rl, p.2 ≠ [])
    (hbad : ∃ p ∈ rl, ∃ e rest2, p.2 = e :: rest2 ∧
      e.1 ≠ "public" ∧ e.1 ≠ "private") :
    ∃ v, v ≠ "public" ∧ v ≠ "private" ∧
      parse_releases strptime fmt rl = .error (.invalidReleaseClassError v) := by
  induction rl with
  | nil =>
    obtain ⟨p, hp, _⟩ := hbad
    cases hp
  | cons q rest ih =>
    obtain ⟨ds, defn⟩ := q
    obtain ⟨dt, hdt1⟩ := Option.isSome_iff_exists.mp (hdt (ds, defn) (List.mem_cons_self _ _))
    cases defn with
    | nil => exact absurd rfl (hne (ds, []) (List.mem_cons_self _ _))
    | cons e drest =>
      obtain ⟨v0, cmt⟩ := e
      by_cases hv0 : v0 = "public" ∨ v0 = "private"
      · have hbad2 : ∃ p ∈ rest, ∃ e rest2, p.2 = e :: rest2 ∧
            e.1 ≠ "public" ∧ e.1 ≠ "private" := by
          obtain ⟨p, hp, e2, r2, hpe, h1, h2⟩ := hbad
          rcases List.mem_cons.mp hp with rfl | hp
          · rw [List.cons.injEq] at hpe
            obtain ⟨rfl, -⟩ := hpe
            rcases hv0 with hv0 | hv0
            · exact absurd hv0 h1
            · exact absurd hv0 h2
          · exact ⟨p, hp, e2, r2, hpe, h1, h2⟩
        obtain ⟨v, hv1, hv2, hrec⟩ := ih
          (fun p hp => hdt p (List.mem_cons_of_mem _ hp))
          (fun p hp => hne p (List.mem_cons_of_mem _ hp)) hbad2
        refine ⟨v, hv1, hv2, ?_⟩
        rcases hv0 with rfl | rfl <;>
          simp [parse_releases, hdt1, ReleaseClass.get_from_value,
            ReleaseClass.value, hrec, bind, Except.bind]
      · push_neg at hv0
        refine ⟨v0, hv0.1, hv0.2, ?_⟩
        simp [parse_releases, hdt1, ReleaseClass.get_from_value,
          ReleaseClass.value, hv0.1, hv0.2, bind, Except.bind]

/-- C8: a document declaring a release whose (first) visibility label is
outside {public, private} makes `parse_changelog` fail with
`InvalidReleaseClassError`; the unknown label is never replaced by a
default. -/
theorem C8_invalid_release_visibility (strptime : String → String → Option Timestamp)
    (d : ChangelogData) (rl : List (String × List (String × String)))
    (hu : d.utc_offset_hours.isSome = true)
    (hrl : d.releases = some rl)
    (hdt : ∀ p ∈ rl,
      (strptime (d.datetime_format.getD DEFAULT_DATETIME_FORMAT) p.1).isSome = true)
    (hne : ∀ p ∈ rl, p.2 ≠ [])
    (hbad : ∃ p ∈ rl, ∃ e rest2, p.2 = e :: rest2 ∧
      e.1 ≠ "public" ∧ e.1 ≠ "private") :
    ∃ v, v ≠ "public" ∧ v ≠ "private" ∧
      ChangeLog.parse_changelog strptime d = .error (.invalidReleaseClassError v) := by
  obtain ⟨v, h1, h2, herr⟩ := parse_releases_first_invalid strptime
    (d.datetime_format.getD DEFAULT_DATETIME_FORMAT) rl hdt hne hbad
  obtain ⟨u, hu2⟩ := Option.isSome_iff_exists.mp hu
  have hstage : releases_stage strptime
      (d.datetime_format.getD DEFAULT_DATETIME_FORMAT) d.releases =
      .error (.invalidReleaseClassError v) := by
    rw [hrl]
    simp only [releases_stage,
      validate_release_datetimes_ok strptime _ rl hdt, herr]
  refine ⟨v, h1, h2, ?_⟩
  unfold ChangeLog.parse_changelog
  simp only [hu2, hstage]

/-- Witness for C8 (spec scenario C): a release at "2023-08-31 00:00" with
visibility label "external" raises `InvalidReleaseClassError`. -/
theorem C8_invalid_release_visibility_witness :
    ∃ v, v ≠ "public" ∧ v ≠ "private" ∧
      ChangeLog.parse_changelog (fun _ _ => some (Timestamp.finite 0))
        { utc_offset_hours := some 9,
          releases := some [("2023-08-31 00:00", [("external", "invalid release class")])],
          change_types := some emptyChangeTypes, changes := some [] } =
      .error (.invalidReleaseClassError v) := by
  refine C8_invalid_release_visibility (fun _ _ => some (Timestamp.finite 0))
    { utc_offset_hours := some 9,
      releases := some [("2023-08-31 00:00", [("external", "invalid release class")])],
      change_types := some emptyChangeTypes, changes := some [] }
    [("2023-08-31 00:00", [("external", "invalid release class")])]
    rfl rfl (fun p _ => rfl) ?_ ?_
  · intro p hp
    rw [List.mem_singleton.mp hp]
    exact List.cons_ne_nil _ _
  · exact ⟨("2023-08-31 00:00", [("external", "invalid release class")]),
      List.mem_singleton.mpr rfl, ("external", "invalid release class"), [],
      rfl, by decide, by decide⟩

/-- The release-datetime validation only looks at keys, so truncating the
definitions changes nothing. -/
theorem validate_release_datetimes_truncate
    (strptime : String → String → Option Timestamp) (fmt : String)
    (rl : List (String × List (String × String))) :
    validate_release_datetimes strptime fmt (rl.map (fun p => (p.1, p.2.take 1))) =
      validate_release_datetimes strptime fmt rl := by
  induction rl with
  | nil => rfl
  | cons q rest ih =>
    obtain ⟨ds, defn⟩ := q
    rcases h : strptime fmt ds with _ | dt <;>
      simp only [List.map_cons, validate_release_datetimes, h]
    exact ih

/-- The release loop reads only the first entry of each definition. -/
theorem parse_releases_truncate (strptime : String → String → Option Timestamp)
    (fmt : String) (rl : List (String × List (String × String))) :
    parse_releases strptime fmt (rl.map (fun p => (p.1, p.2.take 1))) =
      parse_releases strptime fmt rl := by
  induction rl with
  | nil => rfl
  | cons q rest ih =>
    obtain ⟨ds, defn⟩ := q
    rcases h : strptime fmt ds with _ | dt <;>
      simp only [List.map_cons, parse_releases, h]
    cases defn with
    | nil => rfl
    | cons e drest =>
      simp only [List.take_succ_cons, List.take_zero, parse_releases, ih]

/-- The change-definition loop reads only the first entry of each
definition. -/
theorem parse_changes_at_truncate (dt : Timestamp)
    (ctd : List (String × List String)) (defs : List (List (String × String))) :
    parse_changes_at dt ctd (defs.map (List.take 1)) = parse_changes_at dt ctd defs := by
  induction defs with
  | nil => rfl
  | cons cd rest ih =>
    cases cd with
    | nil => rfl
    | cons e drest =>
      simp only [List.map_cons, List.take_succ_cons, List.take_zero,
        parse_changes_at, ih]

/-- The change loop reads only the first entry of each definition. -/
theorem parse_changes_truncate (strptime : String → String → Option Timestamp)
    (fmt : String) (ctd : List (String × List String))
    (chl : List (String × List (List (String × String)))) :
    parse_changes strptime fmt ctd (chl.map (fun p => (p.1, p.2.map (List.take 1)))) =
      parse_changes strptime fmt ctd chl := by
  induction chl with
  | nil => rfl
  | cons q rest ih =>
    obtain ⟨ds, defs⟩ := q
    rcases h : strptime fmt ds with _ | dt <;>
      simp only [List.map_cons, parse_changes, h]
    rw [parse_changes_at_truncate, ih]

/-- The releases stage reads only the first entry of each definition. -/
theorem releases_stage_truncate (strptime : String → String → Option Timestamp)
    (fmt : String) (o : Option (List (String × List (String × String)))) :
    releases_stage strptime fmt (o.map (List.map (fun p => (p.1, p.2.take 1)))) =
      releases_stage strptime fmt o := by
  cases o with
  | none => rfl
  | some rl =>
    simp only [Option.map_some', releases_stage,
      validate_release_datetimes_truncate, parse_releases_truncate]

/-- C10: parsing a document equals parsing the document with every release
definition and change definition truncated to its first entry — the parser
reads only the first entry of each such mapping and silently ignores the
rest, and a multi-entry mapping never raises an error by itself. -/
theorem C10_first_entry_only (strptime : String → String → Option Timestamp)
    (d : ChangelogData) :
    ChangeLog.parse_changelog strptime (truncate_definitions d) =
      ChangeLog.parse_changelog strptime d := by
  obtain ⟨df, uo, rl, ch, ct⟩ := d
  unfold truncate_definitions ChangeLog.parse_changelog
  dsimp only
  cases uo with
  | none => rfl
  | some u =>
    rw [releases_stage_truncate]
    cases hrs : releases_stage strptime (df.getD DEFAULT_DATETIME_FORMAT) rl with
    | error e => rfl
    | ok rels =>
      cases ct with
      | none => rfl
      | some ctd =>
        dsimp only
        cases hv : validate_change_types ctd with
        | error e => rfl
        | ok u2 =>
          cases ch with
          | none => rfl
          | some chl =>
            dsimp only [Option.map_some']
            rw [parse_changes_truncate]
